import Mathlib

/-!
# cat-elo: the rating engine and the cat registry

A shallow embedding of `main.go`: the ELO update (`calculateELO`), the random
opponent pick (`getRandomCat`), the leaderboard (`getTopCats`), the match
handler (`matchResult`) and the merge performed by `reloadCats`.

Go's `int` is the 64-bit two's-complement integer; `float64` is IEEE-754
binary64 with round-to-nearest, ties-to-even.  Library routines whose code is
not part of the repository (`math.Pow`, `sort.Sort`, `rand.Intn`, the JSON
decoder, the content fetch) enter as parameters constrained by their
documented contracts.
-/

namespace CatElo

/-! ## Go `int` -/

/-- Smallest value of Go's 64-bit `int`. -/
def minInt : Int := -9223372036854775808

/-- Largest value of Go's 64-bit `int`. -/
def maxInt : Int := 9223372036854775807

/-- Two's-complement wrap-around of an exact integer result into 64 bits: the
value Go's `+` and `-` on `int` deliver. -/
def wrapInt (x : Int) : Int :=
  (x + 9223372036854775808) % 18446744073709551616 - 9223372036854775808

/-! ## `float64` -/

/-- A `float64` value: not-a-number, an infinity with its sign, or a finite
value carried as the exact rational it denotes.  The sign of zero is not
tracked: `calculateELO` only divides by `1 + p`, which is never a negative
zero, and the integer conversion maps both zeros to `0`. -/
inductive F64 where
  | nan : F64
  | inf (neg : Bool) : F64
  | fin (q : ℚ) : F64
deriving DecidableEq

/-- Nearest integer, ties to the even neighbour. -/
def roundHalfEven (s : ℚ) : ℤ :=
  if s - ⌊s⌋ < 1 / 2 then ⌊s⌋
  else if 1 / 2 < s - ⌊s⌋ then ⌊s⌋ + 1
  else if ⌊s⌋ % 2 = 0 then ⌊s⌋ else ⌊s⌋ + 1

/-- Exponent of the unit in the last place used to round `q`: 53 significant
bits for normal magnitudes, the fixed subnormal spacing `2^-1074` below
`2^-1022`. -/
def ulpExp (q : ℚ) : ℤ := max (Int.log 2 |q|) (-1022) - 52

/-- Round-to-nearest-even onto the binary64 grid, exponent range unbounded
above. -/
def roundQ (q : ℚ) : ℚ := roundHalfEven (q / 2 ^ ulpExp q) * 2 ^ ulpExp q

/-- IEEE-754 rounding of an exact result to `float64`: the grid value, or an
infinity when the rounded magnitude reaches `2^1024`. -/
def rnd (q : ℚ) : F64 :=
  if 2 ^ 1024 ≤ |roundQ q| then F64.inf (decide (q < 0)) else F64.fin (roundQ q)

/-- Addition `a + b` on `float64`. -/
def fadd : F64 → F64 → F64
  | F64.fin a, F64.fin b => rnd (a + b)
  | F64.fin _, F64.inf t => F64.inf t
  | F64.inf s, F64.fin _ => F64.inf s
  | F64.inf s, F64.inf t => if s = t then F64.inf s else F64.nan
  | _, _ => F64.nan

/-- Subtraction `a - b` on `float64`. -/
def fsub : F64 → F64 → F64
  | F64.fin a, F64.fin b => rnd (a - b)
  | F64.fin _, F64.inf t => F64.inf (!t)
  | F64.inf s, F64.fin _ => F64.inf s
  | F64.inf s, F64.inf t => if s = t then F64.nan else F64.inf s
  | _, _ => F64.nan

/-- Multiplication `a * b` on `float64`. -/
def fmul : F64 → F64 → F64
  | F64.fin a, F64.fin b => rnd (a * b)
  | F64.fin a, F64.inf t => if a = 0 then F64.nan else F64.inf (xor (decide (a < 0)) t)
  | F64.inf s, F64.fin b => if b = 0 then F64.nan else F64.inf (xor s (decide (b < 0)))
  | F64.inf s, F64.inf t => F64.inf (xor s t)
  | _, _ => F64.nan

/-- Division `a / b` on `float64`; a zero divisor is the positive zero. -/
def fdiv : F64 → F64 → F64
  | F64.fin a, F64.fin b =>
    if b = 0 then (if a = 0 then F64.nan else F64.inf (decide (a < 0))) else rnd (a / b)
  | F64.fin _, F64.inf _ => F64.fin 0
  | F64.inf s, F64.fin b => F64.inf (xor s (decide (b < 0)))
  | _, _ => F64.nan

/-- The conversion `float64(n)` of an `int`. -/
def ofInt (n : Int) : F64 := rnd n

/-- The conversion `int(f)` of a `float64`: the fraction is discarded
(truncation toward zero).  For a value that does not fit (and for NaN and the
infinities) Go leaves the result to the implementation; amd64 delivers the
smallest `int`. -/
def toInt : F64 → Int
  | F64.fin q =>
    if -9223372036854775808 ≤ q ∧ q < 9223372036854775808 then
      (if 0 ≤ q then ⌊q⌋ else ⌈q⌉)
    else minInt
  | _ => minInt

/-! ## The rating engine -/

/-- `calculateELO` of `main.go`.  `pow` stands for `math.Pow`. -/
def calculateELO (pow : F64 → F64 → F64) (winnerELO loserELO : Int) : Int × Int :=
  let k : Int := 32
  let expectedWinner :=
    fdiv (F64.fin 1) (fadd (F64.fin 1)
      (pow (F64.fin 10) (fdiv (ofInt (wrapInt (loserELO - winnerELO))) (F64.fin 400))))
  let expectedLoser :=
    fdiv (F64.fin 1) (fadd (F64.fin 1)
      (pow (F64.fin 10) (fdiv (ofInt (wrapInt (winnerELO - loserELO))) (F64.fin 400))))
  let winnerNewELO := wrapInt (winnerELO + toInt (fmul (ofInt k) (fsub (F64.fin 1) expectedWinner)))
  let loserNewELO := wrapInt (loserELO + toInt (fmul (ofInt k) (fsub (F64.fin 0) expectedLoser)))
  (winnerNewELO, loserNewELO)

/-- The expected score `1 / (1 + math.Pow(10, float64(diff)/400))` as
`calculateELO` computes it from the (wrapped) rating difference `diff`. -/
def expectedScore (pow : F64 → F64 → F64) (diff : Int) : F64 :=
  fdiv (F64.fin 1) (fadd (F64.fin 1)
    (pow (F64.fin 10) (fdiv (ofInt (wrapInt diff)) (F64.fin 400))))

/-- A `float64` that is neither NaN nor negative. -/
def NonNeg : F64 → Prop
  | F64.fin q => 0 ≤ q
  | F64.inf neg => neg = false
  | F64.nan => False

/-- What is used of `math.Pow`, from its documentation: `Pow(x, ±0) = 1` for
any `x`, `Pow(x, 1) = x` for any `x`, and for the positive base 10 and an
exponent that is not NaN the result is neither NaN nor negative. -/
def PowContract (pow : F64 → F64 → F64) : Prop :=
  (∀ x, pow x (F64.fin 0) = F64.fin 1) ∧
  (∀ x, pow x (F64.fin 1) = x) ∧
  (∀ y, y ≠ F64.nan → NonNeg (pow (F64.fin 10) y))

/-- A stand-in for `math.Pow`: the documented values at the exponents 0 and 1
and, for base 10, the correctly rounded power of the exponent's integer part. -/
def powSample (x y : F64) : F64 :=
  if y = F64.fin 0 then F64.fin 1 else if y = F64.fin 1 then x
  else if x = F64.fin 10 then
    match y with
    | F64.fin q => rnd (10 ^ ⌊q⌋)
    | F64.inf neg => if neg then F64.fin 0 else F64.inf false
    | F64.nan => F64.nan
  else F64.nan

/-- The values `float64` can hold exactly, up to the overflow bound: an
integer significand below `2^53` times a power of two not below `2^-1074`. -/
def OnGrid (q : ℚ) : Prop :=
  ∃ m e : ℤ, |m| < 2 ^ 53 ∧ -1074 ≤ e ∧ q = m * 2 ^ e

/-- The rating formula as the specification words it, over the reals with
`floor` the greatest integer not exceeding its argument. -/
def FloorFormula (winnerRating loserRating : Int) (r : Int × Int) : Prop :=
  r.2 = loserRating +
      ⌊(32 : ℝ) * (0 - 1 / (1 + (10 : ℝ) ^ (((winnerRating - loserRating : ℤ) : ℝ) / 400)))⌋ ∧
  r.1 = winnerRating +
      ⌊(32 : ℝ) * (1 - 1 / (1 + (10 : ℝ) ^ (((loserRating - winnerRating : ℤ) : ℝ) / 400)))⌋

/-! ## The cat registry -/

/-- A cat record. -/
structure Cat where
  ID : String
  Title : String
  Image : String
  ELO : Int
deriving DecidableEq

/-- `ByELO.Less`, on the two elements compared. -/
def ByELO.Less (a b : Cat) : Bool := decide (a.ELO > b.ELO)

/-- What is used of `sort.Sort(ByELO(cats))`: the slice is rearranged in place
into an order in which no later element is `Less` than an earlier one.  The
order among equal ratings is left open (the sort is not stable). -/
def SortContract (sort : List Cat → List Cat) : Prop :=
  ∀ l, (sort l).Perm l ∧ (sort l).Pairwise (fun a b => ByELO.Less b a = false)

/-- A stand-in for `sort.Sort(ByELO(cats))`: insertion sort by descending rating. -/
def sortSample (l : List Cat) : List Cat :=
  l.insertionSort (fun a b => b.ELO ≤ a.ELO)

/-- How a handler can end other than with status 200. -/
inductive Failure where
  /-- Status 400, "Invalid request body". -/
  | invalidBody : Failure
  /-- Status 400, "Invalid cat IDs". -/
  | invalidIDs : Failure
  /-- Status 500, "Error reloading cats". -/
  | reloadError : Failure
  /-- Run-time panic of `rand.Intn(0)`: no cat is left to pick from. -/
  | emptyPool : Failure
  /-- Run-time panic of `cats[:5]`: slice bounds out of range. -/
  | sliceBounds : Failure
deriving DecidableEq

/-- No two cats of the registry share an id. -/
def UniqueIDs (cats : List Cat) : Prop := (cats.map Cat.ID).Nodup

/-- `getRandomCat`.  `draw` is the value of the random source; `rand.Intn(n)`
delivers an index below `n` and panics for `n = 0`. -/
def getRandomCat (draw : Nat) (cats : List Cat) (excludeID : String) : Except Failure Cat :=
  let availableCats := cats.filter (fun cat => cat.ID != excludeID)
  if h : 0 < availableCats.length then
    Except.ok (availableCats.get ⟨draw % availableCats.length, Nat.mod_lt _ h⟩)
  else Except.error Failure.emptyPool

/-- `getTopCats`: the registry after the in-place sort, and the response.  A
registry built by `loadCats` or `reloadCats` with fewer than 5 cats has a
capacity below 5, so `cats[:5]` panics. -/
def getTopCats (sort : List Cat → List Cat) (cats : List Cat) :
    List Cat × Except Failure (List Cat) :=
  let sorted := sort cats
  (sorted, if 5 ≤ sorted.length then Except.ok (sorted.take 5)
           else Except.error Failure.sliceBounds)

/-- The decoded body of a match request. -/
structure MatchData where
  WinnerID : String
  LoserID : String

/-- The lookup loop of `matchResult` from index `i` on: the pointers `winner`
and `loser`, each an index into the slice with the record found there, or
`none` for `nil`. -/
def findCats (winnerID loserID : String) :
    List Cat → Nat → Option (Nat × Cat) × Option (Nat × Cat) →
      Option (Nat × Cat) × Option (Nat × Cat)
  | [], _, found => found
  | cat :: rest, i, (winner, loser) =>
    if cat.ID = winnerID then findCats winnerID loserID rest (i + 1) (some (i, cat), loser)
    else if cat.ID = loserID then findCats winnerID loserID rest (i + 1) (winner, some (i, cat))
    else findCats winnerID loserID rest (i + 1) (winner, loser)

/-- The assignment `cats[i].ELO = elo` through a pointer to element `i`. -/
def setELO : List Cat → Nat → Int → List Cat
  | [], _, _ => []
  | cat :: rest, 0, elo => { cat with ELO := elo } :: rest
  | cat :: rest, i + 1, elo => cat :: setELO rest i elo

/-- `matchResult`: the registry afterwards and the response (the updated
winner and the new opponent).  `body` is the outcome of decoding the request,
`none` when decoding fails. -/
def matchResult (pow : F64 → F64 → F64) (draw : Nat) (cats : List Cat)
    (body : Option MatchData) : List Cat × Except Failure (Cat × Cat) :=
  match body with
  | none => (cats, Except.error Failure.invalidBody)
  | some matchData =>
    match findCats matchData.WinnerID matchData.LoserID cats 0 (none, none) with
    | (some (w, winner), some (l, loser)) =>
      let newELO := calculateELO pow winner.ELO loser.ELO
      let updated := setELO (setELO cats w newELO.1) l newELO.2
      match getRandomCat draw updated winner.ID with
      | Except.ok newOpponent =>
        (updated, Except.ok ({ winner with ELO := newELO.1 }, newOpponent))
      | Except.error e => (updated, Except.error e)
    | _ => (cats, Except.error Failure.invalidIDs)

/-- The map `existingCats` of `reloadCats`: for each id the record the loop
stored last. -/
def existingCats (cats : List Cat) : String → Option Cat :=
  cats.foldl (fun m cat => fun id => if id = cat.ID then some cat else m id) (fun _ => none)

/-- The merge step of `reloadCats`: the new contents of the registry. -/
def mergeCats (cats localCats : List Cat) : List Cat :=
  localCats.foldl (fun acc localCat =>
    acc ++ [match existingCats cats localCat.ID with
            | some existingCat => { localCat with ELO := existingCat.ELO }
            | none => { localCat with ELO := 1200 }]) []

/-- `reloadCats`: `loaded` is what `loadCats` returned. -/
def reloadCats (cats : List Cat) (loaded : Except String (List Cat)) :
    List Cat × Except Failure Unit :=
  match loaded with
  | Except.error _ => (cats, Except.error Failure.reloadError)
  | Except.ok localCats => (mergeCats cats localCats, Except.ok ())

/-! ## Rounding to the nearest integer -/

theorem floor_le_roundHalfEven (s : ℚ) : ⌊s⌋ ≤ roundHalfEven s := by
  unfold roundHalfEven
  split_ifs <;> omega

theorem roundHalfEven_le_floor_succ (s : ℚ) : roundHalfEven s ≤ ⌊s⌋ + 1 := by
  unfold roundHalfEven
  split_ifs <;> omega

theorem roundHalfEven_intCast (n : ℤ) : roundHalfEven (n : ℚ) = n := by
  unfold roundHalfEven
  simp

theorem roundHalfEven_mono {s t : ℚ} (h : s ≤ t) : roundHalfEven s ≤ roundHalfEven t := by
  rcases lt_or_eq_of_le (Int.floor_mono h) with hlt | heq
  · calc roundHalfEven s ≤ ⌊s⌋ + 1 := roundHalfEven_le_floor_succ s
      _ ≤ ⌊t⌋ := hlt
      _ ≤ roundHalfEven t := floor_le_roundHalfEven t
  · unfold roundHalfEven
    rw [heq]
    have hd : s - ⌊t⌋ ≤ t - ⌊t⌋ := by linarith
    split_ifs <;> first | omega | (exfalso; linarith)

theorem le_roundHalfEven {n : ℤ} {s : ℚ} (h : (n : ℚ) ≤ s) : n ≤ roundHalfEven s := by
  have := roundHalfEven_mono h
  rwa [roundHalfEven_intCast] at this

theorem roundHalfEven_le {n : ℤ} {s : ℚ} (h : s ≤ (n : ℚ)) : roundHalfEven s ≤ n := by
  have := roundHalfEven_mono h
  rwa [roundHalfEven_intCast] at this

/-! ## Rounding onto the binary64 grid -/

theorem two_zpow_pos (e : ℤ) : (0 : ℚ) < 2 ^ e := zpow_pos (by norm_num) e

theorem ulpExp_ge (q : ℚ) : -1074 ≤ ulpExp q := by
  unfold ulpExp
  have := le_max_right (Int.log 2 |q|) (-1022)
  omega

theorem abs_lt_two_zpow_ulpExp (q : ℚ) : |q| < 2 ^ (ulpExp q + 53) := by
  have h := Int.lt_zpow_succ_log_self (b := 2) (by norm_num) |q|
  have hle : Int.log 2 |q| + 1 ≤ ulpExp q + 53 := by
    unfold ulpExp
    have := le_max_left (Int.log 2 |q|) (-1022)
    omega
  calc |q| < 2 ^ (Int.log 2 |q| + 1) := by simpa using h
    _ ≤ 2 ^ (ulpExp q + 53) := zpow_le_zpow_right₀ (by norm_num) hle

theorem roundQ_zero : roundQ 0 = 0 := by
  unfold roundQ
  have : roundHalfEven ((0 : ℚ) / 2 ^ ulpExp 0) = 0 := by
    rw [zero_div]
    exact_mod_cast roundHalfEven_intCast 0
  rw [this]
  simp

theorem ulpExp_le_of_grid {q : ℚ} {m e : ℤ} (hq0 : q ≠ 0) (hm : |m| < 2 ^ 53)
    (he : -1074 ≤ e) (hq : q = m * 2 ^ e) : ulpExp q ≤ e := by
  have hpos : 0 < |q| := abs_pos.mpr hq0
  have h1 : (2 : ℚ) ^ Int.log 2 |q| ≤ |q| := by
    simpa using Int.zpow_log_le_self (b := 2) (by norm_num) hpos
  have hmq : |(m : ℚ)| < 2 ^ (53 : ℤ) := by
    have : ((|m| : ℤ) : ℚ) < ((2 ^ 53 : ℤ) : ℚ) := by exact_mod_cast hm
    rw [Int.cast_abs] at this
    rw [zpow_ofNat]
    exact_mod_cast this
  have h2 : |q| < 2 ^ (53 + e) := by
    rw [hq, abs_mul, abs_of_pos (two_zpow_pos e), zpow_add₀ (by norm_num)]
    exact mul_lt_mul_of_pos_right hmq (two_zpow_pos e)
  have h3 : (2 : ℚ) ^ Int.log 2 |q| < 2 ^ (53 + e) := lt_of_le_of_lt h1 h2
  have h4 : Int.log 2 |q| < 53 + e := by
    by_contra hcon
    push_neg at hcon
    exact absurd (zpow_le_zpow_right₀ (by norm_num : (1 : ℚ) ≤ 2) hcon) (not_le.mpr h3)
  unfold ulpExp
  rcases max_cases (Int.log 2 |q|) (-1022) with ⟨h, _⟩ | ⟨h, _⟩ <;> rw [h] <;> omega

theorem roundQ_of_scaled {q : ℚ} {n : ℤ} (h : q = n * 2 ^ ulpExp q) : roundQ q = q := by
  have hs : q / 2 ^ ulpExp q = (n : ℚ) := by
    rw [div_eq_iff (two_zpow_pos _).ne']
    exact h
  unfold roundQ
  rw [hs, roundHalfEven_intCast]
  exact h.symm

theorem roundQ_of_onGrid {q : ℚ} (h : OnGrid q) : roundQ q = q := by
  obtain ⟨m, e, hm, he, hq⟩ := h
  by_cases h0 : q = 0
  · rw [h0]
    exact roundQ_zero
  · have hu := ulpExp_le_of_grid h0 hm he hq
    obtain ⟨k, hk⟩ := Int.eq_ofNat_of_zero_le (sub_nonneg.mpr hu)
    have he2 : e = (k : ℤ) + ulpExp q := by omega
    apply roundQ_of_scaled (n := m * 2 ^ k)
    rw [Int.cast_mul, Int.cast_pow, Int.cast_ofNat, mul_assoc, ← zpow_natCast,
      ← zpow_add₀ (by norm_num : (2 : ℚ) ≠ 0), ← he2]
    exact hq

theorem roundQ_nonneg {q : ℚ} (h : 0 ≤ q) : 0 ≤ roundQ q := by
  unfold roundQ
  have hs : ((0 : ℤ) : ℚ) ≤ q / 2 ^ ulpExp q := by
    rw [Int.cast_zero]
    exact div_nonneg h (two_zpow_pos _).le
  have := le_roundHalfEven hs
  exact mul_nonneg (by exact_mod_cast this) (two_zpow_pos _).le

theorem scaled_abs_lt (q : ℚ) : |q / 2 ^ ulpExp q| < 2 ^ (53 : ℤ) := by
  rw [abs_div, abs_of_pos (two_zpow_pos _), div_lt_iff₀ (two_zpow_pos _),
    ← zpow_add₀ (by norm_num : (2 : ℚ) ≠ 0), add_comm]
  exact abs_lt_two_zpow_ulpExp q

theorem roundHalfEven_scaled_le (q : ℚ) : roundHalfEven (q / 2 ^ ulpExp q) ≤ 2 ^ 53 := by
  apply roundHalfEven_le
  have h := (abs_lt.mp (scaled_abs_lt q)).2
  rw [zpow_ofNat] at h
  push_cast
  exact h.le

theorem neg_le_roundHalfEven_scaled (q : ℚ) : -(2 ^ 53) ≤ roundHalfEven (q / 2 ^ ulpExp q) := by
  apply le_roundHalfEven
  have h := (abs_lt.mp (scaled_abs_lt q)).1
  rw [zpow_ofNat] at h
  push_cast
  exact h.le

theorem roundQ_le_two_zpow (q : ℚ) : roundQ q ≤ 2 ^ (ulpExp q + 53) := by
  unfold roundQ
  have h : ((roundHalfEven (q / 2 ^ ulpExp q) : ℤ) : ℚ) ≤ 2 ^ (53 : ℤ) := by
    rw [zpow_ofNat]
    exact_mod_cast roundHalfEven_scaled_le q
  rw [add_comm, zpow_add₀ (by norm_num : (2 : ℚ) ≠ 0)]
  exact mul_le_mul_of_nonneg_right h (two_zpow_pos _).le

theorem two_zpow_le_roundQ {b : ℚ} (hb : 0 < b) (hu : -1074 < ulpExp b) :
    2 ^ (ulpExp b + 52) ≤ roundQ b := by
  have hL : ulpExp b + 52 = Int.log 2 |b| := by
    unfold ulpExp at hu ⊢
    rcases max_cases (Int.log 2 |b|) (-1022) with ⟨h, _⟩ | ⟨h, _⟩ <;> rw [h] at hu ⊢ <;> omega
  have h1 : (2 : ℚ) ^ (ulpExp b + 52) ≤ b := by
    rw [hL]
    have := Int.zpow_log_le_self (b := 2) (r := |b|) (by norm_num) (abs_pos.mpr hb.ne')
    rw [abs_of_pos hb] at this ⊢
    simpa using this
  have hs : (((2 ^ 52 : ℤ)) : ℚ) ≤ b / 2 ^ ulpExp b := by
    rw [le_div_iff₀ (two_zpow_pos _)]
    have hc : (((2 ^ 52 : ℤ)) : ℚ) = (2 : ℚ) ^ (52 : ℤ) := by norm_num
    rw [hc, ← zpow_add₀ (by norm_num : (2 : ℚ) ≠ 0), add_comm]
    exact h1
  have h2 := le_roundHalfEven hs
  unfold roundQ
  have h3 : ((2 : ℚ) ^ (52 : ℤ)) ≤ ((roundHalfEven (b / 2 ^ ulpExp b) : ℤ) : ℚ) := by
    rw [zpow_ofNat]
    exact_mod_cast h2
  rw [add_comm, zpow_add₀ (by norm_num : (2 : ℚ) ≠ 0)]
  exact mul_le_mul_of_nonneg_right h3 (two_zpow_pos _).le

theorem ulpExp_mono {a b : ℚ} (ha : 0 < a) (h : a ≤ b) : ulpExp a ≤ ulpExp b := by
  have hb : 0 < b := lt_of_lt_of_le ha h
  have hl : Int.log 2 |a| ≤ Int.log 2 |b| := by
    rw [abs_of_pos ha, abs_of_pos hb]
    exact Int.log_mono_right ha h
  unfold ulpExp
  have := max_le_max hl (le_refl (-1022 : ℤ))
  omega

theorem roundQ_mono_of_nonneg {a b : ℚ} (ha : 0 ≤ a) (h : a ≤ b) : roundQ a ≤ roundQ b := by
  rcases eq_or_lt_of_le ha with h0 | hpos
  · rw [← h0, roundQ_zero]
    exact roundQ_nonneg (le_trans ha h)
  · have hb : 0 < b := lt_of_lt_of_le hpos h
    rcases eq_or_lt_of_le (ulpExp_mono hpos h) with heq | hlt
    · unfold roundQ
      rw [heq]
      have hs : a / 2 ^ ulpExp b ≤ b / 2 ^ ulpExp b :=
        div_le_div_of_nonneg_right h (two_zpow_pos _).le
      have := roundHalfEven_mono hs
      exact mul_le_mul_of_nonneg_right (by exact_mod_cast this) (two_zpow_pos _).le
    · have hu : -1074 < ulpExp b := lt_of_le_of_lt (ulpExp_ge a) hlt
      calc roundQ a ≤ 2 ^ (ulpExp a + 53) := roundQ_le_two_zpow a
        _ ≤ 2 ^ (ulpExp b + 52) := zpow_le_zpow_right₀ (by norm_num) (by omega)
        _ ≤ roundQ b := two_zpow_le_roundQ hb hu

theorem onGrid_roundQ (q : ℚ) : OnGrid (roundQ q) := by
  have h1 := roundHalfEven_scaled_le q
  have h2 := neg_le_roundHalfEven_scaled q
  rcases eq_or_lt_of_le h1 with hmax | hlt
  · refine ⟨1, ulpExp q + 53, by norm_num, by have := ulpExp_ge q; omega, ?_⟩
    unfold roundQ
    rw [hmax, add_comm, zpow_add₀ (by norm_num : (2 : ℚ) ≠ 0)]
    push_cast
    rw [zpow_ofNat]
    ring
  · rcases eq_or_lt_of_le h2 with hmin | hgt
    · refine ⟨-1, ulpExp q + 53, by norm_num, by have := ulpExp_ge q; omega, ?_⟩
      unfold roundQ
      rw [← hmin, add_comm, zpow_add₀ (by norm_num : (2 : ℚ) ≠ 0)]
      push_cast
      rw [zpow_ofNat]
      ring
    · exact ⟨roundHalfEven (q / 2 ^ ulpExp q), ulpExp q, abs_lt.mpr ⟨hgt, hlt⟩, ulpExp_ge q, rfl⟩

theorem le_roundQ {a q : ℚ} (hg : OnGrid a) (ha : 0 ≤ a) (h : a ≤ q) : a ≤ roundQ q := by
  have := roundQ_mono_of_nonneg ha h
  rwa [roundQ_of_onGrid hg] at this

theorem roundQ_le {b q : ℚ} (hg : OnGrid b) (hq : 0 ≤ q) (h : q ≤ b) : roundQ q ≤ b := by
  have := roundQ_mono_of_nonneg hq h
  rwa [roundQ_of_onGrid hg] at this

/-! ## `float64` operations on bounded operands -/

theorem rnd_of_onGrid {q : ℚ} (hg : OnGrid q) (hb : |q| < 2 ^ 1024) : rnd q = F64.fin q := by
  unfold rnd
  rw [roundQ_of_onGrid hg, if_neg (not_le.mpr hb)]

theorem rnd_between {a b q : ℚ} (hga : OnGrid a) (hgb : OnGrid b) (ha : 0 ≤ a)
    (h1 : a ≤ q) (h2 : q ≤ b) (hb : b < 2 ^ 1024) :
    rnd q = F64.fin (roundQ q) ∧ a ≤ roundQ q ∧ roundQ q ≤ b := by
  have hq : 0 ≤ q := le_trans ha h1
  have hlo := le_roundQ hga ha h1
  have hhi := roundQ_le hgb hq h2
  refine ⟨?_, hlo, hhi⟩
  unfold rnd
  rw [if_neg]
  rw [not_le, abs_of_nonneg (le_trans ha hlo)]
  exact lt_of_le_of_lt hhi hb

theorem rnd_lower {a q : ℚ} (hga : OnGrid a) (ha : 0 ≤ a) (h1 : a ≤ q) :
    (rnd q = F64.fin (roundQ q) ∧ a ≤ roundQ q) ∨ rnd q = F64.inf false := by
  have hq : 0 ≤ q := le_trans ha h1
  have hlo := le_roundQ hga ha h1
  unfold rnd
  by_cases h : (2 : ℚ) ^ 1024 ≤ |roundQ q|
  · right
    rw [if_pos h]
    simp [not_lt.mpr hq]
  · left
    rw [if_neg h]
    exact ⟨rfl, hlo⟩

theorem rnd_nonNeg {q : ℚ} (hq : 0 ≤ q) : NonNeg (rnd q) := by
  unfold rnd
  split_ifs
  · simp [NonNeg, not_lt.mpr hq]
  · exact roundQ_nonneg hq

theorem rnd_ne_nan (q : ℚ) : rnd q ≠ F64.nan := by
  unfold rnd
  split_ifs <;> simp

theorem onGrid_zero : OnGrid 0 := ⟨0, 0, by norm_num, by norm_num, by norm_num⟩

theorem onGrid_one : OnGrid 1 := ⟨1, 0, by norm_num, by norm_num, by norm_num⟩

theorem onGrid_neg {q : ℚ} (h : OnGrid q) : OnGrid (-q) := by
  obtain ⟨m, e, hm, he, hq⟩ := h
  exact ⟨-m, e, by rwa [abs_neg], he, by rw [hq]; push_cast; ring⟩

theorem onGrid_mul_32 {q : ℚ} (h : OnGrid q) : OnGrid (32 * q) := by
  obtain ⟨m, e, hm, he, hq⟩ := h
  refine ⟨m, e + 5, hm, by omega, ?_⟩
  rw [hq, zpow_add₀ (by norm_num : (2 : ℚ) ≠ 0)]
  norm_num
  ring

theorem onGrid_div_32 {k : ℤ} (h0 : 0 ≤ k) (h1 : k ≤ 32) : OnGrid ((k : ℚ) / 32) := by
  refine ⟨k, -5, by rw [abs_of_nonneg h0]; omega, by norm_num, ?_⟩
  rw [zpow_neg]
  norm_num
  ring

theorem ofInt_32 : ofInt 32 = F64.fin 32 := by
  unfold ofInt
  have hg : OnGrid ((32 : ℤ) : ℚ) := ⟨32, 0, by norm_num, by norm_num, by norm_num⟩
  rw [rnd_of_onGrid hg (by norm_num)]
  norm_num

theorem wrapInt_of_inRange {x : Int} (h1 : minInt ≤ x) (h2 : x ≤ maxInt) : wrapInt x = x := by
  unfold minInt at h1
  unfold maxInt at h2
  unfold wrapInt
  omega

/-- The exponent handed to `math.Pow` is never NaN. -/
theorem exponent_ne_nan (n : Int) : fdiv (ofInt n) (F64.fin 400) ≠ F64.nan := by
  unfold ofInt rnd
  split_ifs
  · simp [fdiv]
  · simp only [fdiv]
    rw [if_neg (by norm_num)]
    exact rnd_ne_nan _

/-- The expected score is a finite grid value between 0 and 1. -/
theorem expectedScore_bounds {pow : F64 → F64 → F64} (hp : PowContract pow) (d : Int) :
    ∃ e : ℚ, expectedScore pow d = F64.fin e ∧ 0 ≤ e ∧ e ≤ 1 ∧ OnGrid e := by
  have hnn := hp.2.2 _ (exponent_ne_nan (wrapInt d))
  unfold expectedScore
  generalize pow (F64.fin 10) (fdiv (ofInt (wrapInt d)) (F64.fin 400)) = p at hnn
  cases p with
  | nan => exact absurd hnn (by simp [NonNeg])
  | inf neg =>
    have : neg = false := hnn
    subst this
    exact ⟨0, by simp [fadd, fdiv], le_refl _, by norm_num, onGrid_zero⟩
  | fin q =>
    have hq : 0 ≤ q := hnn
    simp only [fadd]
    rcases rnd_lower onGrid_one (by norm_num) (by linarith : (1 : ℚ) ≤ 1 + q) with ⟨h, hr⟩ | h
    · rw [h]
      simp only [fdiv]
      rw [if_neg (by linarith)]
      have hpos : (0 : ℚ) < roundQ (1 + q) := by linarith
      have h0 : (0 : ℚ) ≤ 1 / roundQ (1 + q) := by positivity
      have h1 : 1 / roundQ (1 + q) ≤ (1 : ℚ) := by
        rw [div_le_iff₀ hpos]
        linarith
      obtain ⟨h2, h3, h4⟩ := rnd_between onGrid_zero onGrid_one (le_refl _) h0 h1 (by norm_num)
      exact ⟨_, h2, h3, h4, onGrid_roundQ _⟩
    · rw [h]
      exact ⟨0, by simp [fdiv], le_refl _, by norm_num, onGrid_zero⟩

/-- The winner's term `float64(k)*(1-expectedWinner)` for a score in `[0, 1]`. -/
theorem winner_term {e : ℚ} (h0 : 0 ≤ e) (h1 : e ≤ 1) :
    fmul (ofInt 32) (fsub (F64.fin 1) (F64.fin e)) = F64.fin (32 * roundQ (1 - e)) ∧
      0 ≤ roundQ (1 - e) ∧ roundQ (1 - e) ≤ 1 := by
  obtain ⟨h2, h3, h4⟩ := rnd_between onGrid_zero onGrid_one (le_refl _)
    (by linarith : (0 : ℚ) ≤ 1 - e) (by linarith : 1 - e ≤ (1 : ℚ)) (by norm_num)
  refine ⟨?_, h3, h4⟩
  rw [ofInt_32]
  simp only [fsub, h2, fmul]
  apply rnd_of_onGrid (onGrid_mul_32 (onGrid_roundQ _))
  rw [abs_of_nonneg (by linarith)]
  calc 32 * roundQ (1 - e) ≤ 32 * 1 := by linarith
    _ < 2 ^ 1024 := by norm_num

/-- The loser's term `float64(k)*(0-expectedLoser)` for a grid score in `[0, 1]`. -/
theorem loser_term {e : ℚ} (h0 : 0 ≤ e) (h1 : e ≤ 1) (hg : OnGrid e) :
    fmul (ofInt 32) (fsub (F64.fin 0) (F64.fin e)) = F64.fin (-(32 * e)) := by
  rw [ofInt_32]
  have hs : fsub (F64.fin 0) (F64.fin e) = F64.fin (-e) := by
    simp only [fsub, zero_sub]
    apply rnd_of_onGrid (onGrid_neg hg)
    rw [abs_neg, abs_of_nonneg h0]
    calc e ≤ 1 := h1
      _ < 2 ^ 1024 := by norm_num
  rw [hs]
  simp only [fmul]
  have : (32 : ℚ) * -e = -(32 * e) := by ring
  rw [this]
  apply rnd_of_onGrid (onGrid_neg (onGrid_mul_32 hg))
  rw [abs_neg, abs_of_nonneg (by linarith)]
  calc 32 * e ≤ 32 * 1 := by linarith
    _ < 2 ^ 1024 := by norm_num

theorem toInt_of_nonneg {x : ℚ} (h0 : 0 ≤ x) (h1 : x ≤ 32) : toInt (F64.fin x) = ⌊x⌋ := by
  simp only [toInt]
  rw [if_pos ⟨by linarith, by linarith⟩, if_pos h0]

theorem toInt_of_nonpos {x : ℚ} (h0 : x ≤ 0) (h1 : -32 ≤ x) : toInt (F64.fin x) = ⌈x⌉ := by
  simp only [toInt]
  rw [if_pos ⟨by linarith, by linarith⟩]
  split_ifs with h
  · have : x = 0 := le_antisymm h0 h
    subst this
    simp
  · rfl

theorem calculateELO_eq (pow : F64 → F64 → F64) (w l : Int) :
    calculateELO pow w l =
      (wrapInt (w + toInt (fmul (ofInt 32) (fsub (F64.fin 1) (expectedScore pow (l - w))))),
       wrapInt (l + toInt (fmul (ofInt 32) (fsub (F64.fin 0) (expectedScore pow (w - l)))))) :=
  rfl

/-- The winner's rating change is an integer between 0 and 32. -/
theorem winner_delta {pow : F64 → F64 → F64} (hp : PowContract pow) (d : Int) :
    ∃ e : ℚ, expectedScore pow d = F64.fin e ∧ 0 ≤ e ∧ e ≤ 1 ∧ OnGrid e ∧
      toInt (fmul (ofInt 32) (fsub (F64.fin 1) (expectedScore pow d))) = ⌊32 * roundQ (1 - e)⌋ ∧
      0 ≤ ⌊32 * roundQ (1 - e)⌋ ∧ ⌊32 * roundQ (1 - e)⌋ ≤ 32 := by
  obtain ⟨e, he, h0, h1, hg⟩ := expectedScore_bounds hp d
  obtain ⟨ht, ht0, ht1⟩ := winner_term h0 h1
  refine ⟨e, he, h0, h1, hg, ?_, ?_, ?_⟩
  · rw [he, ht]
    exact toInt_of_nonneg (by linarith) (by linarith)
  · exact Int.floor_nonneg.mpr (by linarith)
  · have : ⌊32 * roundQ (1 - e)⌋ ≤ ⌊(32 : ℚ)⌋ := Int.floor_mono (by linarith)
    have h32 : ⌊(32 : ℚ)⌋ = 32 := by simp
    omega

/-- The loser's rating change is an integer between -32 and 0. -/
theorem loser_delta {pow : F64 → F64 → F64} (hp : PowContract pow) (d : Int) :
    ∃ e : ℚ, expectedScore pow d = F64.fin e ∧ 0 ≤ e ∧ e ≤ 1 ∧ OnGrid e ∧
      toInt (fmul (ofInt 32) (fsub (F64.fin 0) (expectedScore pow d))) = -⌊32 * e⌋ ∧
      0 ≤ ⌊32 * e⌋ ∧ ⌊32 * e⌋ ≤ 32 := by
  obtain ⟨e, he, h0, h1, hg⟩ := expectedScore_bounds hp d
  refine ⟨e, he, h0, h1, hg, ?_, ?_, ?_⟩
  · rw [he, loser_term h0 h1 hg, toInt_of_nonpos (by linarith) (by linarith), Int.ceil_neg]
  · exact Int.floor_nonneg.mpr (by linarith)
  · have : ⌊32 * e⌋ ≤ ⌊(32 : ℚ)⌋ := Int.floor_mono (by linarith)
    have h32 : ⌊(32 : ℚ)⌋ = 32 := by simp
    omega

theorem powSample_contract : PowContract powSample := by
  refine ⟨fun x => by simp [powSample], fun x => by simp [powSample], fun y hy => ?_⟩
  unfold powSample
  split_ifs with h0 h1 h2
  · simp [NonNeg]
  · simp [NonNeg]
  · cases y with
    | nan => exact absurd rfl hy
    | inf neg => cases neg <;> simp [NonNeg]
    | fin q => exact rnd_nonNeg (zpow_nonneg (by norm_num) _)
  · exact absurd rfl h2

/-! ## The expected score at the rating differences 0 and 400 -/

theorem ofInt_400 : ofInt 400 = F64.fin 400 := by
  unfold ofInt
  have hg : OnGrid ((400 : ℤ) : ℚ) := ⟨400, 0, by norm_num, by norm_num, by norm_num⟩
  rw [rnd_of_onGrid hg (by norm_num)]
  norm_num

theorem ofInt_0 : ofInt 0 = F64.fin 0 := by
  unfold ofInt
  have hg : OnGrid ((0 : ℤ) : ℚ) := ⟨0, 0, by norm_num, by norm_num, by norm_num⟩
  rw [rnd_of_onGrid hg (by norm_num)]
  norm_num

theorem expectedScore_zero {pow : F64 → F64 → F64} (hp : PowContract pow) {d : Int}
    (hd : wrapInt d = 0) : expectedScore pow d = F64.fin (1 / 2) := by
  unfold expectedScore
  rw [hd, ofInt_0]
  have h1 : fdiv (F64.fin 0) (F64.fin 400) = F64.fin 0 := by
    simp only [fdiv]
    rw [if_neg (by norm_num), zero_div]
    exact rnd_of_onGrid onGrid_zero (by norm_num)
  rw [h1, hp.1]
  have h2 : fadd (F64.fin 1) (F64.fin 1) = F64.fin 2 := by
    simp only [fadd]
    have hg : OnGrid ((1 : ℚ) + 1) := ⟨2, 0, by norm_num, by norm_num, by norm_num⟩
    rw [rnd_of_onGrid hg (by norm_num)]
    norm_num
  rw [h2]
  simp only [fdiv]
  rw [if_neg (by norm_num)]
  have hg : OnGrid ((1 : ℚ) / 2) := ⟨1, -1, by norm_num, by norm_num, by rw [zpow_neg]; norm_num⟩
  exact rnd_of_onGrid hg (by rw [abs_of_nonneg (by norm_num)]; norm_num)

theorem expectedScore_400 {pow : F64 → F64 → F64} (hp : PowContract pow) {d : Int}
    (hd : wrapInt d = 400) :
    ∃ e : ℚ, expectedScore pow d = F64.fin e ∧ 5 / 64 ≤ e ∧ e ≤ 47 / 512 ∧ OnGrid e := by
  unfold expectedScore
  rw [hd, ofInt_400]
  have h1 : fdiv (F64.fin 400) (F64.fin 400) = F64.fin 1 := by
    simp only [fdiv]
    rw [if_neg (by norm_num), div_self (by norm_num)]
    exact rnd_of_onGrid onGrid_one (by norm_num)
  rw [h1, hp.2.1]
  have h2 : fadd (F64.fin 1) (F64.fin 10) = F64.fin 11 := by
    simp only [fadd]
    have hg : OnGrid ((1 : ℚ) + 10) := ⟨11, 0, by norm_num, by norm_num, by norm_num⟩
    rw [rnd_of_onGrid hg (by norm_num)]
    norm_num
  rw [h2]
  simp only [fdiv]
  rw [if_neg (by norm_num)]
  have hlo : OnGrid ((5 : ℚ) / 64) :=
    ⟨5, -6, by norm_num, by norm_num, by rw [zpow_neg]; norm_num⟩
  have hhi : OnGrid ((47 : ℚ) / 512) :=
    ⟨47, -9, by norm_num, by norm_num, by rw [zpow_neg]; norm_num⟩
  obtain ⟨h3, h4, h5⟩ := rnd_between hlo hhi (by norm_num)
    (by norm_num : (5 : ℚ) / 64 ≤ 1 / 11) (by norm_num : (1 : ℚ) / 11 ≤ 47 / 512) (by norm_num)
  exact ⟨_, h3, h4, h5, onGrid_roundQ _⟩

/-- At equal ratings the two terms convert to 16 and -16. -/
theorem terms_zero {pow : F64 → F64 → F64} (hp : PowContract pow) {d : Int}
    (hd : wrapInt d = 0) :
    toInt (fmul (ofInt 32) (fsub (F64.fin 1) (expectedScore pow d))) = 16 ∧
      toInt (fmul (ofInt 32) (fsub (F64.fin 0) (expectedScore pow d))) = -16 := by
  rw [expectedScore_zero hp hd]
  have hg : OnGrid ((1 : ℚ) / 2) := ⟨1, -1, by norm_num, by norm_num, by rw [zpow_neg]; norm_num⟩
  obtain ⟨ht, _, _⟩ := winner_term (by norm_num : (0 : ℚ) ≤ 1 / 2) (by norm_num)
  have hr : roundQ (1 - 1 / 2) = 1 / 2 := by
    have : (1 : ℚ) - 1 / 2 = 1 / 2 := by norm_num
    rw [this]
    exact roundQ_of_onGrid hg
  rw [hr] at ht
  rw [ht, loser_term (by norm_num) (by norm_num) hg]
  constructor
  · rw [toInt_of_nonneg (by norm_num) (by norm_num)]
    norm_num
  · rw [toInt_of_nonpos (by norm_num) (by norm_num), Int.ceil_eq_iff]
    constructor <;> norm_num

/-- At a rating difference of 400 the two terms convert to 29 and -2. -/
theorem terms_400 {pow : F64 → F64 → F64} (hp : PowContract pow) {d : Int}
    (hd : wrapInt d = 400) :
    toInt (fmul (ofInt 32) (fsub (F64.fin 1) (expectedScore pow d))) = 29 ∧
      toInt (fmul (ofInt 32) (fsub (F64.fin 0) (expectedScore pow d))) = -2 := by
  obtain ⟨e, he, h1, h2, hg⟩ := expectedScore_400 hp hd
  rw [he]
  obtain ⟨ht, ht0, ht1⟩ := winner_term (by linarith : (0 : ℚ) ≤ e) (by linarith)
  have hlo : OnGrid ((465 : ℚ) / 512) :=
    ⟨465, -9, by norm_num, by norm_num, by rw [zpow_neg]; norm_num⟩
  have hhi : OnGrid ((59 : ℚ) / 64) :=
    ⟨59, -6, by norm_num, by norm_num, by rw [zpow_neg]; norm_num⟩
  have h3 : (465 : ℚ) / 512 ≤ roundQ (1 - e) := le_roundQ hlo (by norm_num) (by linarith)
  have h4 : roundQ (1 - e) ≤ 59 / 64 := roundQ_le hhi (by linarith) (by linarith)
  rw [ht, loser_term (by linarith) (by linarith) hg]
  constructor
  · rw [toInt_of_nonneg (by linarith) (by linarith), Int.floor_eq_iff]
    constructor <;> norm_num <;> linarith
  · rw [toInt_of_nonpos (by linarith) (by linarith), Int.ceil_eq_iff]
    constructor <;> norm_num <;> linarith

theorem floor_complement {e : ℚ} (h0 : 0 ≤ e) (h1 : e ≤ 1) :
    ⌊32 * roundQ (1 - e)⌋ + ⌊32 * e⌋ = 31 ∨ ⌊32 * roundQ (1 - e)⌋ + ⌊32 * e⌋ = 32 := by
  have hn0 : 0 ≤ ⌊32 * e⌋ := Int.floor_nonneg.mpr (by linarith)
  have hn1 : ((⌊32 * e⌋ : ℤ) : ℚ) ≤ 32 * e := Int.floor_le _
  have hn2 : 32 * e < ((⌊32 * e⌋ : ℤ) : ℚ) + 1 := Int.lt_floor_add_one _
  have hn32 : ⌊32 * e⌋ ≤ 32 := by
    have hc : ((⌊32 * e⌋ : ℤ) : ℚ) ≤ ((32 : ℤ) : ℚ) := by
      push_cast
      linarith
    exact_mod_cast hc
  have ht0 : 0 ≤ roundQ (1 - e) := roundQ_nonneg (by linarith)
  have hup : ⌊32 * roundQ (1 - e)⌋ ≤ 32 - ⌊32 * e⌋ := by
    have hg := onGrid_div_32 (k := 32 - ⌊32 * e⌋) (by omega) (by omega)
    have hle : roundQ (1 - e) ≤ ((32 - ⌊32 * e⌋ : ℤ) : ℚ) / 32 := by
      apply roundQ_le hg (by linarith)
      push_cast
      linarith
    have hc : 32 * roundQ (1 - e) ≤ ((32 - ⌊32 * e⌋ : ℤ) : ℚ) := by linarith
    have := Int.floor_mono hc
    rwa [Int.floor_intCast] at this
  have hlo : 31 - ⌊32 * e⌋ ≤ ⌊32 * roundQ (1 - e)⌋ := by
    rcases lt_or_eq_of_le hn32 with hlt | heq
    · have hg := onGrid_div_32 (k := 31 - ⌊32 * e⌋) (by omega) (by omega)
      have hk0 : (0 : ℚ) ≤ ((31 - ⌊32 * e⌋ : ℤ) : ℚ) / 32 := by
        apply div_nonneg _ (by norm_num)
        exact_mod_cast (by omega : (0 : ℤ) ≤ 31 - ⌊32 * e⌋)
      have hle : ((31 - ⌊32 * e⌋ : ℤ) : ℚ) / 32 ≤ roundQ (1 - e) := by
        apply le_roundQ hg hk0
        push_cast
        linarith
      have hc : ((31 - ⌊32 * e⌋ : ℤ) : ℚ) ≤ 32 * roundQ (1 - e) := by linarith
      exact Int.le_floor.mpr hc
    · have : 0 ≤ ⌊32 * roundQ (1 - e)⌋ := Int.floor_nonneg.mpr (by linarith)
      omega
  omega

/-! ## The claims about `calculateELO` -/

/-- C1 (amended): for ratings `Rw > Rl` far enough from the ends of the `int`
range that adding a change of at most 32 cannot wrap around, the winner's new
rating is at least `Rw` and the loser's new rating is at most `Rl`. -/
theorem C1_win_never_costs_within_range (pow : F64 → F64 → F64) (hp : PowContract pow)
    (Rw Rl : Int) (h : Rl < Rw) (hl : minInt + 32 ≤ Rl) (hw : Rw + 32 ≤ maxInt) :
    Rw ≤ (calculateELO pow Rw Rl).1 ∧ (calculateELO pow Rw Rl).2 ≤ Rl := by
  obtain ⟨_, _, _, _, _, hwd, hw0, hw1⟩ := winner_delta hp (Rl - Rw)
  obtain ⟨_, _, _, _, _, hld, hl0, hl1⟩ := loser_delta hp (Rw - Rl)
  rw [calculateELO_eq, hwd, hld]
  simp only
  rw [wrapInt_of_inRange (by omega) (by omega), wrapInt_of_inRange (by omega) (by omega)]
  omega

/-- C1 (witness): the amended claim at the ratings 1600 and 1200. -/
theorem C1_witness :
    PowContract powSample ∧ (1200 : Int) < 1600 ∧
      1600 ≤ (calculateELO powSample 1600 1200).1 ∧
      (calculateELO powSample 1600 1200).2 ≤ 1200 :=
  ⟨powSample_contract, by norm_num,
    C1_win_never_costs_within_range powSample powSample_contract 1600 1200 (by norm_num)
      (by norm_num [minInt]) (by norm_num [maxInt])⟩

/-- C1 (counterexample): the winner holds the largest `int` and the loser
`minInt + 399`, so `Rw > Rl`; the difference `loserELO - winnerELO` wraps to
400, the winner gains 29 points and the sum wraps to `minInt + 28`, which is
below the winner's old rating. -/
theorem C1_counterexample :
    minInt + 399 < maxInt ∧
      ∀ pow, PowContract pow →
        (calculateELO pow maxInt (minInt + 399)).1 = minInt + 28 ∧
        ¬ maxInt ≤ (calculateELO pow maxInt (minInt + 399)).1 := by
  refine ⟨by norm_num [minInt, maxInt], fun pow hp => ?_⟩
  have hd : wrapInt (minInt + 399 - maxInt) = 400 := by
    unfold wrapInt minInt maxInt
    omega
  have hv : (calculateELO pow maxInt (minInt + 399)).1 = minInt + 28 := by
    rw [calculateELO_eq, (terms_400 hp hd).1]
    unfold wrapInt minInt maxInt
    omega
  refine ⟨hv, ?_⟩
  rw [hv]
  norm_num [minInt, maxInt]

/-- C2 (amended): for every rating `R` with `minInt + 16 ≤ R ≤ maxInt - 16`,
`calculateELO(R, R)` returns `(R + 16, R - 16)`. -/
theorem C2_equal_ratings_within_range (pow : F64 → F64 → F64) (hp : PowContract pow)
    (R : Int) (h1 : minInt + 16 ≤ R) (h2 : R + 16 ≤ maxInt) :
    calculateELO pow R R = (R + 16, R - 16) := by
  have hd : wrapInt (R - R) = 0 := by
    unfold wrapInt
    omega
  obtain ⟨hw, hl⟩ := terms_zero hp hd
  rw [calculateELO_eq, hw, hl, wrapInt_of_inRange (by omega) (by omega),
    wrapInt_of_inRange (by omega) (by omega)]
  rfl

/-- C2 (witness): `calculateELO(1200, 1200) = (1216, 1184)`. -/
theorem C2_witness :
    PowContract powSample ∧ calculateELO powSample 1200 1200 = (1216, 1184) :=
  ⟨powSample_contract,
    C2_equal_ratings_within_range powSample powSample_contract 1200
      (by norm_num [minInt]) (by norm_num [maxInt])⟩

/-- C2 (counterexample): at `R = maxInt` the winner's sum `R + 16` wraps
around to `minInt + 15`, which is not `R + 16`. -/
theorem C2_counterexample :
    (∀ pow, PowContract pow → (calculateELO pow maxInt maxInt).1 = minInt + 15) ∧
      minInt + 15 ≠ maxInt + 16 := by
  refine ⟨fun pow hp => ?_, by norm_num [minInt, maxInt]⟩
  have hd : wrapInt (maxInt - maxInt) = 0 := by
    unfold wrapInt
    omega
  rw [calculateELO_eq, (terms_zero hp hd).1]
  unfold wrapInt minInt maxInt
  omega

/-- C3 (amended): with every operation carried out in `float64` and the
integer sums wrapping in 64 bits, the first result is
`winnerRating + floor(x)` for the non-negative product
`x = 32 × (1 − expectedWinner)`, and the second result is
`loserRating + ceil(y)` for the non-positive product
`y = 32 × (0 − expectedLoser)`: the conversion discards the fraction, which
rounds a negative value up toward zero, not down. -/
theorem C3_conversion_truncates (pow : F64 → F64 → F64) (hp : PowContract pow)
    (winnerRating loserRating : Int) :
    ∃ x y : ℚ,
      fmul (ofInt 32) (fsub (F64.fin 1) (expectedScore pow (loserRating - winnerRating)))
        = F64.fin x ∧
      fmul (ofInt 32) (fsub (F64.fin 0) (expectedScore pow (winnerRating - loserRating)))
        = F64.fin y ∧
      0 ≤ x ∧ y ≤ 0 ∧
      calculateELO pow winnerRating loserRating =
        (wrapInt (winnerRating + ⌊x⌋), wrapInt (loserRating + ⌈y⌉)) := by
  obtain ⟨e1, he1, h10, h11, hg1⟩ := expectedScore_bounds hp (loserRating - winnerRating)
  obtain ⟨e2, he2, h20, h21, hg2⟩ := expectedScore_bounds hp (winnerRating - loserRating)
  obtain ⟨ht, ht0, ht1⟩ := winner_term h10 h11
  have hl := loser_term h20 h21 hg2
  refine ⟨32 * roundQ (1 - e1), -(32 * e2), ?_, ?_, by linarith, by linarith, ?_⟩
  · rw [he1, ht]
  · rw [he2, hl]
  · rw [calculateELO_eq, he1, he2, ht, hl, toInt_of_nonneg (by linarith) (by linarith),
      toInt_of_nonpos (by linarith) (by linarith)]

/-- C3 (witness): the amended claim at the ratings 1600 and 1200. -/
theorem C3_witness :
    PowContract powSample ∧
    ∃ x y : ℚ,
      fmul (ofInt 32) (fsub (F64.fin 1) (expectedScore powSample (1200 - 1600))) = F64.fin x ∧
      fmul (ofInt 32) (fsub (F64.fin 0) (expectedScore powSample (1600 - 1200))) = F64.fin y ∧
      0 ≤ x ∧ y ≤ 0 ∧
      calculateELO powSample 1600 1200 = (wrapInt (1600 + ⌊x⌋), wrapInt (1200 + ⌈y⌉)) :=
  ⟨powSample_contract, C3_conversion_truncates powSample powSample_contract 1600 1200⟩

/-- C3 (counterexample): for the ratings 1600 and 1200 the exponent is 1,
`expectedLoser` is `1/11` and `32 × (0 − 1/11)` is about `-2.9`; the code
returns `1200 - 2 = 1198` for the loser, the floor formula gives
`1200 + floor(-32/11) = 1197`. -/
theorem C3_counterexample :
    (∀ pow, PowContract pow → (calculateELO pow 1600 1200).2 = 1198) ∧
    (1200 + ⌊(32 : ℝ) * (0 - 1 / (1 + (10 : ℝ) ^ (((1600 - 1200 : ℤ) : ℝ) / 400)))⌋ = 1197) ∧
    ¬ ∃ pow, PowContract pow ∧ FloorFormula 1600 1200 (calculateELO pow 1600 1200) := by
  have hcode : ∀ pow, PowContract pow → (calculateELO pow 1600 1200).2 = 1198 := by
    intro pow hp
    have hd : wrapInt (1600 - 1200) = 400 := by
      unfold wrapInt
      omega
    rw [calculateELO_eq, (terms_400 hp hd).2]
    unfold wrapInt
    omega
  have hspec :
      (1200 : ℤ) + ⌊(32 : ℝ) * (0 - 1 / (1 + (10 : ℝ) ^ (((1600 - 1200 : ℤ) : ℝ) / 400)))⌋
        = 1197 := by
    have hx : (((1600 - 1200 : ℤ) : ℝ) / 400) = 1 := by norm_num
    rw [hx, Real.rpow_one]
    have hf : ⌊(32 : ℝ) * (0 - 1 / (1 + 10))⌋ = -3 := by
      rw [Int.floor_eq_iff]
      constructor <;> norm_num
    rw [hf]
    norm_num
  refine ⟨hcode, hspec, ?_⟩
  rintro ⟨pow, hp, hf, _⟩
  rw [hcode pow hp, hspec] at hf
  exact absurd hf (by norm_num)

/-- C4 (amended): for a rating `A` that is at least 32 away from both ends of
the `int` range and any rating `B`, the winner's change in
`calculateELO(A, B)` and the loser's change in `calculateELO(B, A)` are
complementary, not opposite: their difference is 31 or 32.  They are opposite
(16 and -16) when `A = B`. -/
theorem C4_role_swap_complement (pow : F64 → F64 → F64) (hp : PowContract pow)
    (A B : Int) (h1 : minInt + 32 ≤ A) (h2 : A + 32 ≤ maxInt) :
    (((calculateELO pow A B).1 - A) - ((calculateELO pow B A).2 - A) = 31 ∨
      ((calculateELO pow A B).1 - A) - ((calculateELO pow B A).2 - A) = 32) ∧
    (A = B → (calculateELO pow A B).1 - A = -((calculateELO pow B A).2 - A)) := by
  obtain ⟨e, he, h0, h1e, _, hwd, hw0, hw1⟩ := winner_delta hp (B - A)
  obtain ⟨e2, he2, _, _, _, hld, hl0, hl1⟩ := loser_delta hp (B - A)
  have hee : e2 = e := by
    have := he2.symm.trans he
    exact F64.fin.inj this
  subst hee
  have hc := floor_complement h0 h1e
  have hA : (calculateELO pow A B).1 = A + ⌊32 * roundQ (1 - e2)⌋ := by
    rw [calculateELO_eq, hwd]
    exact wrapInt_of_inRange (by omega) (by omega)
  have hB : (calculateELO pow B A).2 = A + -⌊32 * e2⌋ := by
    rw [calculateELO_eq, hld]
    exact wrapInt_of_inRange (by omega) (by omega)
  constructor
  · rw [hA, hB]
    omega
  · intro hAB
    subst hAB
    have hd : wrapInt (A - A) = 0 := by
      unfold wrapInt
      omega
    obtain ⟨hw, hl⟩ := terms_zero hp hd
    rw [calculateELO_eq, hw, hl, wrapInt_of_inRange (by omega) (by omega),
      wrapInt_of_inRange (by omega) (by omega)]
    simp

/-- C4 (witness): the amended claim at `A = 1200`, `B = 1600`. -/
theorem C4_witness :
    PowContract powSample ∧
    (((calculateELO powSample 1200 1600).1 - 1200)
        - ((calculateELO powSample 1600 1200).2 - 1200) = 31 ∨
      ((calculateELO powSample 1200 1600).1 - 1200)
        - ((calculateELO powSample 1600 1200).2 - 1200) = 32) ∧
    ((1200 : Int) = 1600 →
      (calculateELO powSample 1200 1600).1 - 1200
        = -((calculateELO powSample 1600 1200).2 - 1200)) :=
  ⟨powSample_contract,
    C4_role_swap_complement powSample powSample_contract 1200 1600
      (by norm_num [minInt]) (by norm_num [maxInt])⟩

/-- C4 (counterexample): with `A = 1200` and `B = 1600` the winner's change in
`calculateELO(A, B)` is `+29` while the loser's change in `calculateELO(B, A)`
is `-2`, and `29` is not `-(-2)`. -/
theorem C4_counterexample :
    (∀ pow, PowContract pow →
      (calculateELO pow 1200 1600).1 - 1200 = 29 ∧
      (calculateELO pow 1600 1200).2 - 1200 = -2 ∧
      ¬ ((calculateELO pow 1200 1600).1 - 1200
          = -((calculateELO pow 1600 1200).2 - 1200))) ∧
    (29 : Int) ≠ -(-2) := by
  refine ⟨fun pow hp => ?_, by norm_num⟩
  have hd : wrapInt (1600 - 1200) = 400 := by
    unfold wrapInt
    omega
  obtain ⟨hw, hl⟩ := terms_400 hp hd
  have h1 : (calculateELO pow 1200 1600).1 = 1229 := by
    rw [calculateELO_eq, hw]
    unfold wrapInt
    omega
  have h2 : (calculateELO pow 1600 1200).2 = 1198 := by
    rw [calculateELO_eq, hl]
    unfold wrapInt
    omega
  rw [h1, h2]
  norm_num

/-! ## The random pick -/

theorem getRandomCat_ok {draw : Nat} {cats : List Cat} {excludeID : String} {c : Cat}
    (h : getRandomCat draw cats excludeID = Except.ok c) : c ∈ cats ∧ c.ID ≠ excludeID := by
  unfold getRandomCat at h
  simp only at h
  split_ifs at h with hpos
  injection h with h
  have hm : c ∈ cats.filter (fun cat => cat.ID != excludeID) := by
    rw [← h]
    exact List.get_mem _ _ _
  rw [List.mem_filter] at hm
  simpa using hm

theorem getRandomCat_exists (draw : Nat) {cats : List Cat} {excludeID : String}
    (h : ∃ c ∈ cats, c.ID ≠ excludeID) : ∃ c, getRandomCat draw cats excludeID = Except.ok c := by
  obtain ⟨c, hc, hne⟩ := h
  have hm : c ∈ cats.filter (fun cat => cat.ID != excludeID) := by
    rw [List.mem_filter]
    exact ⟨hc, by simpa using hne⟩
  have hpos : 0 < (cats.filter (fun cat => cat.ID != excludeID)).length :=
    List.length_pos_of_mem hm
  unfold getRandomCat
  simp only
  rw [dif_pos hpos]
  exact ⟨_, rfl⟩

theorem getRandomCat_empty (draw : Nat) {cats : List Cat} {excludeID : String}
    (h : ∀ c ∈ cats, c.ID = excludeID) :
    getRandomCat draw cats excludeID = Except.error Failure.emptyPool := by
  have hnil : cats.filter (fun cat => cat.ID != excludeID) = [] := by
    rw [List.filter_eq_nil_iff]
    intro c hc
    simpa using h c hc
  unfold getRandomCat
  simp only
  rw [dif_neg (by rw [hnil]; simp)]

theorem exists_other_id {cats : List Cat} (hu : UniqueIDs cats) (hn : 2 ≤ cats.length)
    (excludeID : String) : ∃ c ∈ cats, c.ID ≠ excludeID := by
  match cats, hu, hn with
  | a :: b :: rest, hu, _ =>
    have hab : a.ID ≠ b.ID := by
      unfold UniqueIDs at hu
      simp only [List.map_cons, List.nodup_cons, List.mem_cons, not_or] at hu
      exact hu.1.1
    by_cases ha : a.ID = excludeID
    · exact ⟨b, by simp, fun hb => hab (ha.trans hb.symm)⟩
    · exact ⟨a, by simp, ha⟩

/-- C9 (amended): on a registry of at least 2 cats with pairwise distinct ids
`getRandomCat(excludeID)` returns a cat of the registry whose id differs from
`excludeID`; on any registry it never returns a cat whose id equals
`excludeID`; and when no registry cat has an id different from `excludeID` it
fails, for every value of the draw, with the panic of `rand.Intn(0)`. -/
theorem C9_pick_excludes (draw : Nat) (cats : List Cat) (excludeID : String) :
    (UniqueIDs cats → 2 ≤ cats.length →
      ∃ c, getRandomCat draw cats excludeID = Except.ok c ∧ c ∈ cats ∧ c.ID ≠ excludeID) ∧
    (∀ c, getRandomCat draw cats excludeID = Except.ok c → c ∈ cats ∧ c.ID ≠ excludeID) ∧
    ((∀ c ∈ cats, c.ID = excludeID) →
      getRandomCat draw cats excludeID = Except.error Failure.emptyPool) := by
  refine ⟨fun hu hn => ?_, fun c h => getRandomCat_ok h, getRandomCat_empty draw⟩
  obtain ⟨c, hc⟩ := getRandomCat_exists draw (exists_other_id hu hn excludeID)
  exact ⟨c, hc, getRandomCat_ok hc⟩

/-- C9 (witness): on the registry of the cats `"a"` and `"b"` the pick that
excludes `"a"` returns a registry cat with another id. -/
theorem C9_witness :
    ∃ c, getRandomCat 7 [Cat.mk "a" "A" "u" 1200, Cat.mk "b" "B" "v" 1216] "a" = Except.ok c ∧
      c ∈ [Cat.mk "a" "A" "u" 1200, Cat.mk "b" "B" "v" 1216] ∧ c.ID ≠ "a" :=
  (C9_pick_excludes 7 [Cat.mk "a" "A" "u" 1200, Cat.mk "b" "B" "v" 1216] "a").1
    (by unfold UniqueIDs; decide) (by decide)

/-- C9 (counterexample): a registry of 2 cats that share the id `"a"`; with
`excludeID = "a"` no cat is left and the pick fails instead of returning a
cat. -/
theorem C9_counterexample :
    ([Cat.mk "a" "x" "u" 1200, Cat.mk "a" "y" "v" 1200] : List Cat).length = 2 ∧
    ∀ draw, getRandomCat draw [Cat.mk "a" "x" "u" 1200, Cat.mk "a" "y" "v" 1200] "a"
      = Except.error Failure.emptyPool := by
  refine ⟨rfl, fun draw => getRandomCat_empty draw ?_⟩
  intro c hc
  simp only [List.mem_cons, List.mem_singleton, List.not_mem_nil, or_false] at hc
  rcases hc with rfl | rfl <;> rfl

/-! ## The lookup loop and the in-place update of `matchResult` -/

theorem id_ne_of_mem_tail {x c : Cat} {xs : List Cat} (hu : UniqueIDs (x :: xs))
    (hc : c ∈ xs) : c.ID ≠ x.ID := by
  unfold UniqueIDs at hu
  rw [List.map_cons, List.nodup_cons] at hu
  intro h
  exact hu.1 (h ▸ List.mem_map_of_mem Cat.ID hc)

theorem uniqueIDs_tail {x : Cat} {xs : List Cat} (hu : UniqueIDs (x :: xs)) : UniqueIDs xs := by
  unfold UniqueIDs at hu ⊢
  rw [List.map_cons, List.nodup_cons] at hu
  exact hu.2

theorem findCats_fst_of_absent (wID lID : String) :
    ∀ (l : List Cat) (i : Nat) (acc : Option (Nat × Cat) × Option (Nat × Cat)),
      (∀ c ∈ l, c.ID ≠ wID) → (findCats wID lID l i acc).1 = acc.1
  | [], _, _, _ => rfl
  | x :: xs, i, (w, lo), h => by
    have hx : x.ID ≠ wID := h x (List.mem_cons_self _ _)
    have hxs : ∀ c ∈ xs, c.ID ≠ wID := fun c hc => h c (List.mem_cons_of_mem _ hc)
    rw [findCats, if_neg hx]
    split_ifs
    · exact findCats_fst_of_absent wID lID xs (i + 1) (w, some (i, x)) hxs
    · exact findCats_fst_of_absent wID lID xs (i + 1) (w, lo) hxs

theorem findCats_snd_of_absent (wID lID : String) :
    ∀ (l : List Cat) (i : Nat) (acc : Option (Nat × Cat) × Option (Nat × Cat)),
      (∀ c ∈ l, c.ID = wID ∨ c.ID ≠ lID) → (findCats wID lID l i acc).2 = acc.2
  | [], _, _, _ => rfl
  | x :: xs, i, (w, lo), h => by
    have hxs : ∀ c ∈ xs, c.ID = wID ∨ c.ID ≠ lID :=
      fun c hc => h c (List.mem_cons_of_mem _ hc)
    rw [findCats]
    split_ifs with h1 h2
    · exact findCats_snd_of_absent wID lID xs (i + 1) (some (i, x), lo) hxs
    · rcases h x (List.mem_cons_self _ _) with h3 | h3
      · exact absurd h3 h1
      · exact absurd h2 h3
    · exact findCats_snd_of_absent wID lID xs (i + 1) (w, lo) hxs

theorem findCats_fst_of_mem (wID lID : String) :
    ∀ (l : List Cat) (i : Nat) (acc : Option (Nat × Cat) × Option (Nat × Cat)) (c : Cat),
      UniqueIDs l → c ∈ l → c.ID = wID →
      ∃ k, l[k]? = some c ∧ (findCats wID lID l i acc).1 = some (i + k, c)
  | [], _, _, _, _, hc, _ => absurd hc (List.not_mem_nil _)
  | x :: xs, i, (w, lo), c, hu, hc, hid => by
    rw [findCats]
    by_cases hx : x.ID = wID
    · have hcx : c = x := by
        rcases List.mem_cons.mp hc with h | h
        · exact h
        · exact absurd (hid.trans hx.symm) (id_ne_of_mem_tail hu h)
      subst hcx
      rw [if_pos hx]
      refine ⟨0, List.getElem?_cons_zero, ?_⟩
      rw [findCats_fst_of_absent wID lID xs (i + 1) _
        (fun d hd hdw => id_ne_of_mem_tail hu hd (hdw.trans hx.symm))]
      rfl
    · have hcxs : c ∈ xs := by
        rcases List.mem_cons.mp hc with h | h
        · exact absurd (h ▸ hid) hx
        · exact h
      rw [if_neg hx]
      split_ifs
      · obtain ⟨k, hk, hf⟩ :=
          findCats_fst_of_mem wID lID xs (i + 1) (w, some (i, x)) c (uniqueIDs_tail hu) hcxs hid
        exact ⟨k + 1, by simpa using hk, by rw [hf]; congr 2; omega⟩
      · obtain ⟨k, hk, hf⟩ :=
          findCats_fst_of_mem wID lID xs (i + 1) (w, lo) c (uniqueIDs_tail hu) hcxs hid
        exact ⟨k + 1, by simpa using hk, by rw [hf]; congr 2; omega⟩

theorem findCats_snd_of_mem (wID lID : String) (hne : wID ≠ lID) :
    ∀ (l : List Cat) (i : Nat) (acc : Option (Nat × Cat) × Option (Nat × Cat)) (c : Cat),
      UniqueIDs l → c ∈ l → c.ID = lID →
      ∃ k, l[k]? = some c ∧ (findCats wID lID l i acc).2 = some (i + k, c)
  | [], _, _, _, _, hc, _ => absurd hc (List.not_mem_nil _)
  | x :: xs, i, (w, lo), c, hu, hc, hid => by
    rw [findCats]
    by_cases hx : x.ID = lID
    · have hcx : c = x := by
        rcases List.mem_cons.mp hc with h | h
        · exact h
        · exact absurd (hid.trans hx.symm) (id_ne_of_mem_tail hu h)
      subst hcx
      rw [if_neg (fun h => hne (h.symm.trans hx)), if_pos hx]
      refine ⟨0, List.getElem?_cons_zero, ?_⟩
      rw [findCats_snd_of_absent wID lID xs (i + 1) _
        (fun d hd => Or.inr (fun hdl => id_ne_of_mem_tail hu hd (hdl.trans hx.symm)))]
      rfl
    · have hcxs : c ∈ xs := by
        rcases List.mem_cons.mp hc with h | h
        · exact absurd (h ▸ hid) hx
        · exact h
      rw [if_neg hx]
      split_ifs
      · obtain ⟨k, hk, hf⟩ :=
          findCats_snd_of_mem wID lID hne xs (i + 1) (some (i, x), lo) c
            (uniqueIDs_tail hu) hcxs hid
        exact ⟨k + 1, by simpa using hk, by rw [hf]; congr 2; omega⟩
      · obtain ⟨k, hk, hf⟩ :=
          findCats_snd_of_mem wID lID hne xs (i + 1) (w, lo) c (uniqueIDs_tail hu) hcxs hid
        exact ⟨k + 1, by simpa using hk, by rw [hf]; congr 2; omega⟩

theorem setELO_map_id : ∀ (l : List Cat) (k : Nat) (a : Int),
    (setELO l k a).map Cat.ID = l.map Cat.ID
  | [], _, _ => rfl
  | _ :: _, 0, _ => rfl
  | x :: xs, k + 1, a => by
    rw [setELO, List.map_cons, List.map_cons, setELO_map_id xs k a]

theorem setELO_eq_map : ∀ (l : List Cat) (k : Nat) (a : Int) (c : Cat),
    UniqueIDs l → l[k]? = some c →
    setELO l k a = l.map (fun x => if x.ID = c.ID then { x with ELO := a } else x)
  | [], _, _, _, _, h => by simp at h
  | x :: xs, 0, a, c, hu, h => by
    have hxc : x = c := by simpa using h
    subst hxc
    rw [setELO, List.map_cons, if_pos rfl]
    congr 1
    have : ∀ y ∈ xs, (fun z : Cat => if z.ID = x.ID then { z with ELO := a } else z) y = id y :=
      fun y hy => if_neg (id_ne_of_mem_tail hu hy)
    rw [List.map_congr_left this, List.map_id]
  | x :: xs, k + 1, a, c, hu, h => by
    have hk : xs[k]? = some c := by simpa using h
    have hc : c ∈ xs := List.getElem?_mem hk
    rw [setELO, List.map_cons, if_neg (fun hx => id_ne_of_mem_tail hu hc hx.symm),
      setELO_eq_map xs k a c (uniqueIDs_tail hu) hk]

theorem matchResult_ids (pow : F64 → F64 → F64) (draw : Nat) (cats : List Cat)
    (body : Option MatchData) :
    (matchResult pow draw cats body).1.map Cat.ID = cats.map Cat.ID := by
  unfold matchResult
  cases body with
  | none => rfl
  | some matchData =>
    simp only
    rcases findCats matchData.WinnerID matchData.LoserID cats 0 (none, none) with
      ⟨_ | ⟨w, winner⟩, _ | ⟨l, loser⟩⟩
    · rfl
    · rfl
    · rfl
    · simp only
      cases getRandomCat draw
        (setELO (setELO cats w (calculateELO pow winner.ELO loser.ELO).1) l
          (calculateELO pow winner.ELO loser.ELO).2) winner.ID with
      | ok c => simp only [setELO_map_id]
      | error e => simp only [setELO_map_id]

theorem matchResult_of_found (pow : F64 → F64 → F64) (draw : Nat) (cats : List Cat)
    (matchData : MatchData) (w l : Nat) (winner loser newOpponent : Cat)
    (hf : findCats matchData.WinnerID matchData.LoserID cats 0 (none, none)
      = (some (w, winner), some (l, loser)))
    (hr : getRandomCat draw
      (setELO (setELO cats w (calculateELO pow winner.ELO loser.ELO).1) l
        (calculateELO pow winner.ELO loser.ELO).2) winner.ID = Except.ok newOpponent) :
    matchResult pow draw cats (some matchData) =
      (setELO (setELO cats w (calculateELO pow winner.ELO loser.ELO).1) l
        (calculateELO pow winner.ELO loser.ELO).2,
       Except.ok ({ winner with ELO := (calculateELO pow winner.ELO loser.ELO).1 },
        newOpponent)) := by
  unfold matchResult
  simp only [hf, hr]

/-! ## The claims about `matchResult` -/

/-- C5: on a registry with pairwise distinct ids, for a decoded request whose
`winnerID` and `loserID` are distinct and both present, `matchResult` succeeds;
afterwards the winner's and the loser's ratings are the first and second
result of `calculateELO` on their old ratings and nothing else has changed
(every record keeps its position, id, title and image, every other cat its
rating); the returned winner carries the updated rating and the returned new
opponent is a cat of the updated registry whose id differs from `winnerID`. -/
theorem C5_match_updates_both (pow : F64 → F64 → F64) (draw : Nat) (cats : List Cat)
    (matchData : MatchData) (winner loser : Cat) (hu : UniqueIDs cats)
    (hw : winner ∈ cats) (hwid : winner.ID = matchData.WinnerID)
    (hl : loser ∈ cats) (hlid : loser.ID = matchData.LoserID)
    (hne : matchData.WinnerID ≠ matchData.LoserID) :
    ∃ newOpponent : Cat,
      matchResult pow draw cats (some matchData) =
        (cats.map (fun c =>
            if c.ID = matchData.WinnerID then
              { c with ELO := (calculateELO pow winner.ELO loser.ELO).1 }
            else if c.ID = matchData.LoserID then
              { c with ELO := (calculateELO pow winner.ELO loser.ELO).2 }
            else c),
         Except.ok ({ winner with ELO := (calculateELO pow winner.ELO loser.ELO).1 },
          newOpponent)) ∧
      newOpponent ∈ (matchResult pow draw cats (some matchData)).1 ∧
      newOpponent.ID ≠ matchData.WinnerID := by
  obtain ⟨i, hi, hfw⟩ := findCats_fst_of_mem matchData.WinnerID matchData.LoserID cats 0
    (none, none) winner hu hw hwid
  obtain ⟨j, hj, hfl⟩ := findCats_snd_of_mem matchData.WinnerID matchData.LoserID hne cats 0
    (none, none) loser hu hl hlid
  have hf : findCats matchData.WinnerID matchData.LoserID cats 0 (none, none)
      = (some (i, winner), some (j, loser)) := by
    apply Prod.ext
    · rw [hfw, Nat.zero_add]
    · rw [hfl, Nat.zero_add]
  generalize hne1 : (calculateELO pow winner.ELO loser.ELO).1 = a
  generalize hne2 : (calculateELO pow winner.ELO loser.ELO).2 = b
  have h1 : setELO cats i a
      = cats.map (fun x => if x.ID = winner.ID then { x with ELO := a } else x) :=
    setELO_eq_map cats i a winner hu hi
  have hu1 : UniqueIDs (setELO cats i a) := by
    unfold UniqueIDs
    rw [setELO_map_id]
    exact hu
  have hlw : loser.ID ≠ winner.ID := by
    rw [hwid, hlid]
    exact fun h => hne h.symm
  have hj1 : (setELO cats i a)[j]? = some loser := by
    rw [h1, List.getElem?_map, hj]
    simp [hlw]
  have h2 : setELO (setELO cats i a) j b
      = cats.map (fun c =>
          if c.ID = matchData.WinnerID then { c with ELO := a }
          else if c.ID = matchData.LoserID then { c with ELO := b }
          else c) := by
    rw [setELO_eq_map (setELO cats i a) j b loser hu1 hj1, h1, List.map_map]
    apply List.map_congr_left
    intro c _
    simp only [Function.comp, hwid, hlid]
    by_cases hc : c.ID = matchData.WinnerID
    · simp [hc, hne]
    · simp [hc]
  have hpool : ∃ c ∈ setELO (setELO cats i a) j b, c.ID ≠ winner.ID := by
    have hmem : loser.ID ∈ (setELO (setELO cats i a) j b).map Cat.ID := by
      rw [setELO_map_id, setELO_map_id]
      exact List.mem_map_of_mem Cat.ID hl
    obtain ⟨c, hc, hcid⟩ := List.mem_map.mp hmem
    exact ⟨c, hc, by rw [hcid]; exact hlw⟩
  obtain ⟨opp, hopp⟩ := getRandomCat_exists draw hpool
  have hres := matchResult_of_found pow draw cats matchData i j winner loser opp hf
    (by rw [hne1, hne2]; exact hopp)
  rw [hne1, hne2, h2] at hres
  refine ⟨opp, hres, ?_, ?_⟩
  · rw [hres, ← h2]
    exact (getRandomCat_ok hopp).1
  · rw [← hwid]
    exact (getRandomCat_ok hopp).2

/-- C5 (witness): a registry of three cats, `"a"` beats `"b"`. -/
theorem C5_witness :
    ∃ newOpponent : Cat,
      matchResult powSample 0
          [Cat.mk "a" "A" "u" 1200, Cat.mk "b" "B" "v" 1200, Cat.mk "c" "C" "w" 1200]
          (some (MatchData.mk "a" "b")) =
        (([Cat.mk "a" "A" "u" 1200, Cat.mk "b" "B" "v" 1200, Cat.mk "c" "C" "w" 1200] :
            List Cat).map (fun c =>
            if c.ID = (MatchData.mk "a" "b").WinnerID then
              { c with ELO := (calculateELO powSample (Cat.mk "a" "A" "u" 1200).ELO
                  (Cat.mk "b" "B" "v" 1200).ELO).1 }
            else if c.ID = (MatchData.mk "a" "b").LoserID then
              { c with ELO := (calculateELO powSample (Cat.mk "a" "A" "u" 1200).ELO
                  (Cat.mk "b" "B" "v" 1200).ELO).2 }
            else c),
         Except.ok ({ Cat.mk "a" "A" "u" 1200 with
            ELO := (calculateELO powSample (Cat.mk "a" "A" "u" 1200).ELO
              (Cat.mk "b" "B" "v" 1200).ELO).1 },
          newOpponent)) ∧
      newOpponent ∈ (matchResult powSample 0
          [Cat.mk "a" "A" "u" 1200, Cat.mk "b" "B" "v" 1200, Cat.mk "c" "C" "w" 1200]
          (some (MatchData.mk "a" "b"))).1 ∧
      newOpponent.ID ≠ (MatchData.mk "a" "b").WinnerID :=
  C5_match_updates_both powSample 0
    [Cat.mk "a" "A" "u" 1200, Cat.mk "b" "B" "v" 1200, Cat.mk "c" "C" "w" 1200]
    (MatchData.mk "a" "b") (Cat.mk "a" "A" "u" 1200) (Cat.mk "b" "B" "v" 1200)
    (by unfold UniqueIDs; decide) (by simp) rfl (by simp) rfl (by decide)

/-- C6: for a decoded request, if `winnerID` is the id of no registry cat, or
`loserID` is the id of no registry cat, or the two ids are equal, `matchResult`
fails with status 400 "Invalid cat IDs" and the registry is exactly what it
was. -/
theorem C6_invalid_ids_no_mutation (pow : F64 → F64 → F64) (draw : Nat) (cats : List Cat)
    (matchData : MatchData)
    (h : (∀ c ∈ cats, c.ID ≠ matchData.WinnerID) ∨ (∀ c ∈ cats, c.ID ≠ matchData.LoserID) ∨
      matchData.WinnerID = matchData.LoserID) :
    matchResult pow draw cats (some matchData) = (cats, Except.error Failure.invalidIDs) := by
  have hnone : (findCats matchData.WinnerID matchData.LoserID cats 0 (none, none)).1 = none ∨
      (findCats matchData.WinnerID matchData.LoserID cats 0 (none, none)).2 = none := by
    rcases h with h | h | h
    · exact Or.inl (findCats_fst_of_absent _ _ cats 0 (none, none) h)
    · exact Or.inr (findCats_snd_of_absent _ _ cats 0 (none, none)
        (fun c hc => Or.inr (h c hc)))
    · refine Or.inr (findCats_snd_of_absent _ _ cats 0 (none, none) (fun c _ => ?_))
      by_cases hc : c.ID = matchData.WinnerID
      · exact Or.inl hc
      · exact Or.inr (fun hl => hc (hl.trans h.symm))
  unfold matchResult
  simp only
  generalize findCats matchData.WinnerID matchData.LoserID cats 0 (none, none) = r at hnone
  rcases r with ⟨_ | ⟨w, winner⟩, _ | ⟨l, loser⟩⟩
  · rfl
  · rfl
  · rfl
  · rcases hnone with h | h <;> simp at h

/-- C6 (witness): `"a"` is reported to have beaten itself, on a registry that
holds `"a"`. -/
theorem C6_witness :
    matchResult powSample 0 [Cat.mk "a" "A" "u" 1200, Cat.mk "b" "B" "v" 1200]
        (some (MatchData.mk "a" "a"))
      = ([Cat.mk "a" "A" "u" 1200, Cat.mk "b" "B" "v" 1200],
          Except.error Failure.invalidIDs) :=
  C6_invalid_ids_no_mutation powSample 0 [Cat.mk "a" "A" "u" 1200, Cat.mk "b" "B" "v" 1200]
    (MatchData.mk "a" "a") (Or.inr (Or.inr rfl))

/-! ## The merge of `reloadCats` -/

theorem existingCats_concat (l : List Cat) (c : Cat) :
    existingCats (l ++ [c]) = fun id => if id = c.ID then some c else existingCats l id := by
  unfold existingCats
  rw [List.foldl_append]
  rfl

theorem existingCats_of_absent (l : List Cat) (id : String) (h : ∀ c ∈ l, c.ID ≠ id) :
    existingCats l id = none := by
  induction l using List.reverseRecOn with
  | nil => rfl
  | append_singleton xs x ih =>
    rw [existingCats_concat]
    have hx : id ≠ x.ID := fun hid => h x (by simp) hid.symm
    simp only [if_neg hx]
    exact ih (fun c hc => h c (List.mem_append_left _ hc))

theorem existingCats_of_mem (l : List Cat) (c : Cat) (hu : UniqueIDs l) (hc : c ∈ l) :
    existingCats l c.ID = some c := by
  induction l using List.reverseRecOn with
  | nil => exact absurd hc (List.not_mem_nil _)
  | append_singleton xs x ih =>
    unfold UniqueIDs at hu
    rw [List.map_append, List.nodup_append] at hu
    obtain ⟨hxs, _, hdis⟩ := hu
    rw [existingCats_concat]
    rcases List.mem_append.mp hc with hm | hm
    · have hne : c.ID ≠ x.ID := by
        intro hid
        exact hdis (List.mem_map_of_mem Cat.ID hm) (by simp [hid])
      simp only [if_neg hne]
      exact ih hxs hm
    · have hcx : c = x := by simpa using hm
      subst hcx
      simp

theorem foldl_append_singleton (g : Cat → Cat) :
    ∀ (l acc : List Cat), l.foldl (fun acc x => acc ++ [g x]) acc = acc ++ l.map g
  | [], acc => by simp
  | x :: xs, acc => by
    rw [List.foldl_cons, foldl_append_singleton g xs, List.map_cons, List.append_assoc]
    rfl

theorem mergeCats_eq_map (cats localCats : List Cat) :
    mergeCats cats localCats = localCats.map (fun localCat =>
      match existingCats cats localCat.ID with
      | some existingCat => { localCat with ELO := existingCat.ELO }
      | none => { localCat with ELO := 1200 }) := by
  unfold mergeCats
  rw [foldl_append_singleton]
  rfl

theorem mergeCats_ids (cats localCats : List Cat) :
    (mergeCats cats localCats).map Cat.ID = localCats.map Cat.ID := by
  rw [mergeCats_eq_map, List.map_map]
  apply List.map_congr_left
  intro f _
  simp only [Function.comp]
  cases existingCats cats f.ID <;> rfl

/-- C7: on a registry with pairwise distinct ids, after the merge step of
`reloadCats` the registry lists the fresh cats in their order, each with the
id, title and image of the fresh entry, with the rating the registry held for
that id before the merge if the id was present and 1200 otherwise; an id that
was in the registry and is absent from the fresh list is no longer in the
registry. -/
theorem C7_merge_carries_ratings (cats freshCats : List Cat) (hu : UniqueIDs cats) :
    List.Forall₂ (fun m f => m.ID = f.ID ∧ m.Title = f.Title ∧ m.Image = f.Image ∧
        (∀ c ∈ cats, c.ID = f.ID → m.ELO = c.ELO) ∧
        ((∀ c ∈ cats, c.ID ≠ f.ID) → m.ELO = 1200))
      (reloadCats cats (Except.ok freshCats)).1 freshCats ∧
    ∀ c ∈ cats, (∀ f ∈ freshCats, f.ID ≠ c.ID) →
      ∀ m ∈ (reloadCats cats (Except.ok freshCats)).1, m.ID ≠ c.ID := by
  have hr : (reloadCats cats (Except.ok freshCats)).1 = mergeCats cats freshCats := rfl
  rw [hr]
  constructor
  · rw [mergeCats_eq_map, List.forall₂_map_left_iff, List.forall₂_same]
    intro f _
    refine ⟨?_, ?_, ?_, ?_, ?_⟩
    · cases existingCats cats f.ID <;> rfl
    · cases existingCats cats f.ID <;> rfl
    · cases existingCats cats f.ID <;> rfl
    · intro c hc hid
      rw [← hid, existingCats_of_mem cats c hu hc]
    · intro hab
      rw [existingCats_of_absent cats f.ID hab]
  · intro c _ hab m hm hid
    have hmem : m.ID ∈ (mergeCats cats freshCats).map Cat.ID := List.mem_map_of_mem Cat.ID hm
    rw [mergeCats_ids] at hmem
    obtain ⟨f, hf, hfid⟩ := List.mem_map.mp hmem
    exact hab f hf (hfid.trans hid)

/-- C7 (witness): the registry holds `"a"` at 1250 and `"b"` at 1180; the
fresh list brings `"b"` and `"c"`. -/
theorem C7_witness :
    List.Forall₂ (fun m f => m.ID = f.ID ∧ m.Title = f.Title ∧ m.Image = f.Image ∧
        (∀ c ∈ [Cat.mk "a" "A" "u" 1250, Cat.mk "b" "B" "v" 1180], c.ID = f.ID → m.ELO = c.ELO) ∧
        ((∀ c ∈ [Cat.mk "a" "A" "u" 1250, Cat.mk "b" "B" "v" 1180], c.ID ≠ f.ID) →
          m.ELO = 1200))
      (reloadCats [Cat.mk "a" "A" "u" 1250, Cat.mk "b" "B" "v" 1180]
        (Except.ok [Cat.mk "b" "B2" "v2" 1200, Cat.mk "c" "C" "w" 1200])).1
      [Cat.mk "b" "B2" "v2" 1200, Cat.mk "c" "C" "w" 1200] ∧
    ∀ c ∈ [Cat.mk "a" "A" "u" 1250, Cat.mk "b" "B" "v" 1180],
      (∀ f ∈ [Cat.mk "b" "B2" "v2" 1200, Cat.mk "c" "C" "w" 1200], f.ID ≠ c.ID) →
      ∀ m ∈ (reloadCats [Cat.mk "a" "A" "u" 1250, Cat.mk "b" "B" "v" 1180]
        (Except.ok [Cat.mk "b" "B2" "v2" 1200, Cat.mk "c" "C" "w" 1200])).1, m.ID ≠ c.ID :=
  C7_merge_carries_ratings [Cat.mk "a" "A" "u" 1250, Cat.mk "b" "B" "v" 1180]
    [Cat.mk "b" "B2" "v2" 1200, Cat.mk "c" "C" "w" 1200] (by unfold UniqueIDs; decide)

/-! ## The leaderboard -/

theorem sortSample_contract : SortContract sortSample := by
  intro l
  haveI : IsTotal Cat (fun a b => b.ELO ≤ a.ELO) := ⟨fun a b => le_total b.ELO a.ELO⟩
  haveI : IsTrans Cat (fun a b => b.ELO ≤ a.ELO) := ⟨fun a b c hab hbc => le_trans hbc hab⟩
  refine ⟨List.perm_insertionSort _ l, ?_⟩
  have hs := List.sorted_insertionSort (fun a b : Cat => b.ELO ≤ a.ELO) l
  refine List.Pairwise.imp ?_ hs
  intro a b hab
  simp only [ByELO.Less, decide_eq_false_iff_not, gt_iff_lt, not_lt]
  exact hab

/-- With at least 5 cats in the registry the leaderboard holds exactly 5 cats
of the registry in non-increasing rating order, and none of the cats left out
has a higher rating than a cat returned. -/
theorem getTopCats_of_five_le (sort : List Cat → List Cat) (hs : SortContract sort)
    (cats : List Cat) (hn : 5 ≤ cats.length) :
    ∃ top rest : List Cat,
      (getTopCats sort cats).2 = Except.ok top ∧ top.length = 5 ∧
      (top ++ rest).Perm cats ∧ (getTopCats sort cats).1 = top ++ rest ∧
      top.Pairwise (fun a b => b.ELO ≤ a.ELO) ∧
      ∀ a ∈ top, ∀ b ∈ rest, b.ELO ≤ a.ELO := by
  obtain ⟨hperm, hsorted⟩ := hs cats
  have hlen : 5 ≤ (sort cats).length := by rw [hperm.length_eq]; exact hn
  have hsorted2 : (sort cats).Pairwise (fun a b => b.ELO ≤ a.ELO) := by
    refine List.Pairwise.imp ?_ hsorted
    intro a b hab
    simpa [ByELO.Less] using hab
  refine ⟨(sort cats).take 5, (sort cats).drop 5, ?_, ?_, ?_, ?_, ?_, ?_⟩
  · unfold getTopCats
    simp only [if_pos hlen]
  · rw [List.length_take]
    omega
  · rw [List.take_append_drop]
    exact hperm
  · rw [List.take_append_drop]
    rfl
  · exact hsorted2.sublist (List.take_sublist _ _)
  · rw [← List.take_append_drop 5 (sort cats), List.pairwise_append] at hsorted2
    exact hsorted2.2.2

/-- C8 (the defect): with fewer than 5 cats in the registry `cats[:5]` is out
of range and the handler panics instead of answering with the cats there are,
whatever order the sort produced. -/
theorem C8_fewer_than_five_panics :
    (∀ sort, SortContract sort → ∀ cats : List Cat, cats.length < 5 →
      (getTopCats sort cats).2 = Except.error Failure.sliceBounds) ∧
    (getTopCats sortSample
      [Cat.mk "a" "A" "u" 1200, Cat.mk "b" "B" "v" 1216, Cat.mk "c" "C" "w" 1184]).2
        = Except.error Failure.sliceBounds := by
  have hgen : ∀ sort, SortContract sort → ∀ cats : List Cat, cats.length < 5 →
      (getTopCats sort cats).2 = Except.error Failure.sliceBounds := by
    intro sort hs cats hn
    have hlen : ¬ 5 ≤ (sort cats).length := by
      rw [(hs cats).1.length_eq]
      omega
    unfold getTopCats
    simp only [if_neg hlen]
  exact ⟨hgen, hgen sortSample sortSample_contract _ (by simp)⟩

/-! ## Uniqueness of the ids -/

/-- C10 (amended): if no two cats of the registry share an id, the same holds
after the in-place sort of `getTopCats`, after `matchResult` however it ends,
and after `reloadCats` whenever the fresh list, if one was loaded, has no two
entries sharing an id. -/
theorem C10_unique_ids_preserved (cats : List Cat) (hu : UniqueIDs cats) :
    (∀ sort, SortContract sort → UniqueIDs (getTopCats sort cats).1) ∧
    (∀ pow draw body, UniqueIDs (matchResult pow draw cats body).1) ∧
    (∀ loaded, (∀ fresh, loaded = Except.ok fresh → UniqueIDs fresh) →
      UniqueIDs (reloadCats cats loaded).1) := by
  refine ⟨fun sort hs => ?_, fun pow draw body => ?_, fun loaded hl => ?_⟩
  · unfold UniqueIDs at hu ⊢
    exact (((hs cats).1.map Cat.ID).nodup_iff).mpr hu
  · unfold UniqueIDs at hu ⊢
    rw [matchResult_ids]
    exact hu
  · cases loaded with
    | error e => exact hu
    | ok fresh =>
      have hf := hl fresh rfl
      unfold UniqueIDs at hf ⊢
      have hr : (reloadCats cats (Except.ok fresh)).1 = mergeCats cats fresh := rfl
      rw [hr, mergeCats_ids]
      exact hf

/-- C10 (witness): a registry of two cats with the ids `"a"` and `"b"`. -/
theorem C10_witness :
    (∀ sort, SortContract sort →
      UniqueIDs (getTopCats sort [Cat.mk "a" "A" "u" 1200, Cat.mk "b" "B" "v" 1216]).1) ∧
    (∀ pow draw body,
      UniqueIDs (matchResult pow draw
        [Cat.mk "a" "A" "u" 1200, Cat.mk "b" "B" "v" 1216] body).1) ∧
    (∀ loaded, (∀ fresh, loaded = Except.ok fresh → UniqueIDs fresh) →
      UniqueIDs (reloadCats [Cat.mk "a" "A" "u" 1200, Cat.mk "b" "B" "v" 1216] loaded).1) :=
  C10_unique_ids_preserved [Cat.mk "a" "A" "u" 1200, Cat.mk "b" "B" "v" 1216]
    (by unfold UniqueIDs; decide)

/-- C10 (counterexample): the content source returns the id `"a"` twice; the
empty registry has no two cats sharing an id, the registry after the merge
has. -/
theorem C10_counterexample :
    UniqueIDs [] ∧
    ¬ UniqueIDs (reloadCats []
      (Except.ok [Cat.mk "a" "A" "u" 1200, Cat.mk "a" "A" "u" 1200])).1 := by
  constructor
  · unfold UniqueIDs
    simp
  · have hr : (reloadCats [] (Except.ok [Cat.mk "a" "A" "u" 1200, Cat.mk "a" "A" "u" 1200])).1
        = mergeCats [] [Cat.mk "a" "A" "u" 1200, Cat.mk "a" "A" "u" 1200] := rfl
    unfold UniqueIDs
    rw [hr, mergeCats_ids]
    simp

end CatElo
